import Mathlib

/-!
Shallow embedding of `hash_index<>` (src/hash_index.hpp) at its default
instantiation: `IndexType = unsigned int` (32-bit, sentinel `~0 = 2^32-1`),
`KeyType = SizeType = std::size_t` (64-bit).  Machine values are modelled as
`Nat`; 32-bit wrap-around is written explicitly as `% 2^32` where the C++
performs `index_type` arithmetic that can overflow, and conversion of a
(possibly negative) signed `long` result to the unsigned `size_type` return
type is written as `% 2^64` on `Int`.

Array reads `a[i]` are modelled by `nth` below, which yields the value stored
at `i` when `i` is in bounds.  Out-of-bounds reads (undefined behaviour in
C++) are given the defined value `null_index`; this also models the
"both pointers are the m_invalid_index_dummy static array" empty state, where
every conceptual slot holds the sentinel.  Out-of-bounds writes are modelled
by `List.set`, which is a no-op out of bounds.  Unbounded C++ chain walks are
modelled with explicit fuel; on every chain that the walk terminates on in
C++, the fuel used here is sufficient and the results agree.
-/

namespace HashIdx

/-- Sentinel `~(unsigned int)0`: the all-ones 32-bit pattern. -/
def null_index : Nat := 2 ^ 32 - 1

/-- All-ones `size_type` pattern `~(std::size_t)0`, the non-empty lookup mask. -/
def full_mask : Nat := 2 ^ 64 - 1

/-- Read of slot `i` of an index array (see the module comment). -/
def nth (l : List Nat) (i : Nat) : Nat := l.getD i null_index

/-- State of a `hash_index<>` object.  `hash_buckets`/`index_chain` hold the
contents of `m_hash_buckets[]`/`m_index_chain[]`; in the unallocated state both
C++ pointers alias the static one-element `m_invalid_index_dummy = {null_index}`
array, modelled by the list `[null_index]` together with `allocated = false`
(which models `m_hash_buckets == m_invalid_index_dummy`). -/
structure HashIndex where
  hash_buckets : List Nat
  index_chain : List Nat
  hash_buckets_size : Nat
  index_chain_size : Nat
  hash_mask : Nat
  lookup_mask : Nat
  granularity : Nat
  allocated : Bool
deriving DecidableEq

/-- Source `is_power_of_two`: `(num > 0) && ((num & (num - 1)) == 0)`. -/
def is_power_of_two (n : Nat) : Bool := decide (0 < n) && (n &&& (n - 1) == 0)

/-- Source `is_allocated`: both pointers differ from the dummy exactly when
the structure was really allocated. -/
def is_allocated (hi : HashIndex) : Bool := hi.allocated

/-- Source `internal_init`: the state set up by the constructors (both buffers
point at the dummy, sizes recorded, mask cached, lookup mask zero,
granularity = `default_granularity` = 1024). -/
def internal_init (b c : Nat) : HashIndex :=
  { hash_buckets := [null_index]
    index_chain := [null_index]
    hash_buckets_size := b
    index_chain_size := c
    hash_mask := b - 1
    lookup_mask := 0
    granularity := 1024
    allocated := false }

/-- State built by the default constructor `hash_index()`:
`internal_init(default_initial_size, default_initial_size)`. -/
def default_hash_index : HashIndex := internal_init 1024 1024

/-- Source `internal_allocate`: allocates both arrays, fills them with
`null_index`, caches `m_hash_mask = size - 1` and sets the all-ones lookup
mask. -/
def internal_allocate (hi : HashIndex) (b c : Nat) : HashIndex :=
  { hash_buckets := List.replicate b null_index
    index_chain := List.replicate c null_index
    hash_buckets_size := b
    index_chain_size := c
    hash_mask := b - 1
    lookup_mask := full_mask
    granularity := hi.granularity
    allocated := true }

/-- Source `first`: `m_hash_buckets[key & m_hash_mask & m_lookup_mask]`. -/
def first (hi : HashIndex) (key : Nat) : Nat :=
  nth hi.hash_buckets (key &&& hi.hash_mask &&& hi.lookup_mask)

/-- Source `next`: `m_index_chain[index & m_lookup_mask]`. -/
def next (hi : HashIndex) (index : Nat) : Nat :=
  nth hi.index_chain (index &&& hi.lookup_mask)

/-- The positions visited by the caller-side lookup loop
`for (i = start; i != null_index; i = next(i))`, fuel-bounded. -/
def traverse (hi : HashIndex) : Nat → Nat → List Nat
  | 0, _ => []
  | fuel + 1, i => if i = null_index then [] else i :: traverse hi fuel (next hi i)

/-- Source `resize_index_chain`: round the requested size up to a multiple of
the granularity; defer (record the size only) when still unallocated,
otherwise grow the array, filling the new tail with `null_index`.  In every
allocated state produced by the model, `index_chain.length = index_chain_size`,
so appending to the list is exactly the C++ copy of the old
`m_index_chain_size` elements plus the `fill_n` of the tail. -/
def resize_index_chain (hi : HashIndex) (n : Nat) : HashIndex :=
  if n ≤ hi.index_chain_size then hi
  else
    let m := n % hi.granularity
    let ns := if m = 0 then n else n + hi.granularity - m
    if hi.allocated = false then { hi with index_chain_size := ns }
    else
      { hi with
          index_chain := hi.index_chain ++ List.replicate (ns - hi.index_chain_size) null_index
          index_chain_size := ns }

/-- Source `insert`: allocate or grow as needed, then prepend `index` to the
bucket chain of `key & m_hash_mask` (the mask read after any allocation). -/
def insert (hi : HashIndex) (key index : Nat) : HashIndex :=
  let hi1 :=
    if hi.allocated = false then
      internal_allocate hi hi.hash_buckets_size
        (if hi.index_chain_size ≤ index then index + 1 else hi.index_chain_size)
    else if hi.index_chain_size ≤ index then resize_index_chain hi (index + 1)
    else hi
  let k := key &&& hi1.hash_mask
  { hi1 with
      index_chain := hi1.index_chain.set index (nth hi1.hash_buckets k)
      hash_buckets := hi1.hash_buckets.set k index }

/-- The walk inside source `erase`:
`for (i = head; i != null_index; i = chain[i]) if (chain[i] == index) { chain[i] = chain[index]; break; }`,
fuel-bounded. -/
def eraseWalk (chain : List Nat) (i index : Nat) : Nat → List Nat
  | 0 => chain
  | fuel + 1 =>
    if i = null_index then chain
    else if nth chain i = index then chain.set i (nth chain index)
    else eraseWalk chain (nth chain i) index fuel

/-- Source `erase`: no-op when unallocated; unlink `index` from the bucket
chain of `key & m_hash_mask` (head case or walk case), then unconditionally
reset `m_index_chain[index]` to the sentinel. -/
def erase (hi : HashIndex) (key index : Nat) : HashIndex :=
  if hi.allocated = false then hi
  else
    let k := key &&& hi.hash_mask
    let chain1 :=
      if nth hi.hash_buckets k = index then hi.index_chain
      else eraseWalk hi.index_chain (nth hi.hash_buckets k) index (hi.index_chain.length + 1)
    let buckets1 :=
      if nth hi.hash_buckets k = index then hi.hash_buckets.set k (nth hi.index_chain index)
      else hi.hash_buckets
    { hi with
        hash_buckets := buckets1
        index_chain := chain1.set index null_index }

/-- One pass of the increment loops in source `insert_at_index`:
`for (i = 0; i < n; ++i) if (a[i] >= index) { a[i]++; if (a[i] > max) max = a[i]; }`.
The increment is `index_type` (32-bit unsigned) arithmetic, so the sentinel
`2^32 - 1` wraps to `0`. -/
def incPass (index n : Nat) (st : List Nat × Nat) : List Nat × Nat :=
  (List.range n).foldl
    (fun st i =>
      let v := nth st.1 i
      if index ≤ v then
        let w := (v + 1) % 2 ^ 32
        (st.1.set i w, if st.2 < w then w else st.2)
      else st)
    st

/-- One pass of the decrement loops in source `erase_and_remove_index`:
`for (i = 0; i < n; ++i) if (a[i] >= index) { if (a[i] > max) max = a[i]; a[i]--; }`
(note: the maximum is taken before the decrement, so the untouched sentinel
value `2^32 - 1` itself becomes the maximum). -/
def decPass (index n : Nat) (st : List Nat × Nat) : List Nat × Nat :=
  (List.range n).foldl
    (fun st i =>
      let v := nth st.1 i
      if index ≤ v then
        (st.1.set i ((v + 2 ^ 32 - 1) % 2 ^ 32), if st.2 < v then v else st.2)
      else st)
    st

/-- Iterations of the shift-right loop of source `insert_at_index`; the loop
`for (i = max; i > index; --i) chain[i] = chain[i - 1];` runs exactly
`max - index` times, decrementing `i` each time. -/
def shiftRightGo (chain : List Nat) (i : Nat) : Nat → List Nat
  | 0 => chain
  | f + 1 => shiftRightGo (chain.set i (nth chain (i - 1))) (i - 1) f

/-- Shift loop of source `insert_at_index`:
`for (i = max; i > index; --i) chain[i] = chain[i - 1];`. -/
def shiftRight (chain : List Nat) (i index : Nat) : List Nat :=
  shiftRightGo chain i (i - index)

/-- Iterations of the shift-left loop of source `erase_and_remove_index`; the
loop `for (i = index; i < max; ++i) chain[i] = chain[i + 1];` runs exactly
`max - index` times, incrementing `i` each time. -/
def shiftLeftGo (chain : List Nat) (i : Nat) : Nat → List Nat
  | 0 => chain
  | f + 1 => shiftLeftGo (chain.set i (nth chain (i + 1))) (i + 1) f

/-- Shift loop of source `erase_and_remove_index`:
`for (i = index; i < max; ++i) chain[i] = chain[i + 1];`. -/
def shiftLeft (chain : List Nat) (i max : Nat) : List Nat :=
  shiftLeftGo chain i (max - i)

/-- Source `insert_at_index`: bump every stored value `>= index` in both
arrays (tracking the running maximum after each increment), grow the chain to
cover the maximum, shift chain slots right to open a gap at `index`, then do a
normal `insert`. -/
def insert_at_index (hi : HashIndex) (key index : Nat) : HashIndex :=
  if hi.allocated = false then hi
  else
    let pb := incPass index hi.hash_buckets_size (hi.hash_buckets, index)
    let pc := incPass index hi.index_chain_size (hi.index_chain, pb.2)
    let hi1 := { hi with hash_buckets := pb.1, index_chain := pc.1 }
    let hi2 :=
      if hi1.index_chain_size ≤ pc.2 then resize_index_chain hi1 (pc.2 + 1) else hi1
    let chain1 := (shiftRight hi2.index_chain pc.2 index).set index null_index
    insert { hi2 with index_chain := chain1 } key index

/-- Source `erase_and_remove_index`: normal `erase`, then decrement every
stored value `>= index` in both arrays (tracking the maximum before each
decrement), close the gap by shifting chain slots left up to that maximum, and
write the sentinel at the maximum. -/
def erase_and_remove_index (hi : HashIndex) (key index : Nat) : HashIndex :=
  if hi.allocated = false then hi
  else
    let hi1 := erase hi key index
    let pb := decPass index hi1.hash_buckets_size (hi1.hash_buckets, index)
    let pc := decPass index hi1.index_chain_size (hi1.index_chain, pb.2)
    let chain1 := (shiftLeft pc.1 index pc.2).set pc.2 null_index
    { hi1 with hash_buckets := pb.1, index_chain := chain1 }

/-- Source `clear`: refill the bucket array with the sentinel (the index chain
is deliberately left alone); no-op on the dummy. -/
def clear (hi : HashIndex) : HashIndex :=
  if hi.allocated then
    { hi with hash_buckets := List.replicate hi.hash_buckets_size null_index }
  else hi

/-- Source `clear_and_free`: release both buffers (back to the dummy), zero
the lookup mask.  The recorded sizes are kept. -/
def clear_and_free (hi : HashIndex) : HashIndex :=
  { hi with
      hash_buckets := [null_index]
      index_chain := [null_index]
      lookup_mask := 0
      allocated := false }

/-- Source `clear_and_resize`: free, then record the new sizes.  Note that
`m_hash_mask` is not updated here. -/
def clear_and_resize (hi : HashIndex) (b c : Nat) : HashIndex :=
  let h := clear_and_free hi
  { h with hash_buckets_size := b, index_chain_size := c }

/-- Source `set_granularity`. -/
def set_granularity (hi : HashIndex) (g : Nat) : HashIndex :=
  { hi with granularity := g }

/-- Source `allocated_bytes` (with `sizeof(index_type) = 4`). -/
def allocated_bytes (hi : HashIndex) : Nat :=
  if hi.allocated then hi.hash_buckets_size * 4 + hi.index_chain_size * 4 else 0

/-- Source `operator==`: scalar fields, allocation state, then element-wise
comparison of the first `m_hash_buckets_size` / `m_index_chain_size` slots. -/
def hash_index_beq (a b : HashIndex) : Bool :=
  (a.hash_buckets_size == b.hash_buckets_size) &&
  (a.index_chain_size == b.index_chain_size) &&
  (a.hash_mask == b.hash_mask) &&
  (a.lookup_mask == b.lookup_mask) &&
  (a.granularity == b.granularity) &&
  (a.allocated == b.allocated) &&
  ((List.range a.hash_buckets_size).all fun i => nth a.hash_buckets i == nth b.hash_buckets i) &&
  ((List.range a.index_chain_size).all fun i => nth a.index_chain i == nth b.index_chain i)

/-- Source friend `swap`: exchanges the whole state of the two objects. -/
def hash_index_swap (a b : HashIndex) : HashIndex × HashIndex := (b, a)

/-- Source move constructor: delegate to the default constructor, then swap
with the moved-from object.  Returns (destination, moved-from source). -/
def move_construct (hi : HashIndex) : HashIndex × HashIndex :=
  let p := hash_index_swap default_hash_index hi
  (p.1, p.2)

/-- Chain-length count in source `compute_distribution_percentage`:
`for (index = m_hash_buckets[i]; index != null_index; index = m_index_chain[index]) count++`,
fuel-bounded. -/
def chainLen (chain : List Nat) (i : Nat) : Nat → Nat
  | 0 => 0
  | fuel + 1 => if i = null_index then 0 else 1 + chainLen chain (nth chain i) fuel

/-- Source `compute_distribution_percentage`.  The arithmetic is C++ signed
`long`; the final `100 - error*100/total` can be negative, and the conversion
of that `long` to the unsigned `size_type` return type is the `% 2^64`. -/
def compute_distribution_percentage (hi : HashIndex) : Nat :=
  if hi.allocated = false then 100
  else
    let counts := (List.range hi.hash_buckets_size).map fun i =>
      chainLen hi.index_chain (nth hi.hash_buckets i) (hi.index_chain.length + 1)
    let total := counts.sum
    if total ≤ 1 then 100
    else
      let avg := total / hi.hash_buckets_size
      let error := (counts.map fun c =>
        let e := if avg ≤ c then c - avg else avg - c
        if 1 < e then e - 1 else 0).sum
      (((100 : Int) - (error : Int) * 100 / (total : Int)) % (2 : Int) ^ 64).toNat

/-!  Specification-level definitions: the chain abstraction, the
representation invariant of allocated states, disciplined operation traces,
and the public-operation step relation used for reachability claims. -/

/-- `ChainList chain h l` holds when the bucket chain starting at head `h`
through the slots of `chain` terminates, visiting exactly the positions `l`
(each in bounds and distinct from the sentinel). -/
inductive ChainList (chain : List Nat) : Nat → List Nat → Prop where
  | nil : ChainList chain null_index []
  | cons {h : Nat} {l : List Nat} :
      h ≠ null_index → h < chain.length →
      ChainList chain (nth chain h) l → ChainList chain h (h :: l)

/-- Representation invariant of an allocated `hash_index`, with `m b` the
list of positions stored in bucket `b` (head first). -/
structure Inv (hi : HashIndex) (m : Nat → List Nat) : Prop where
  alloc : hi.allocated = true
  blen : hi.hash_buckets.length = hi.hash_buckets_size
  clen : hi.index_chain.length = hi.index_chain_size
  csize : hi.index_chain_size ≤ 2 ^ 64
  pot : ∃ kk ≤ 64, hi.hash_buckets_size = 2 ^ kk
  mask : hi.hash_mask = hi.hash_buckets_size - 1
  lookup : hi.lookup_mask = full_mask
  chains : ∀ b < hi.hash_buckets_size, ChainList hi.index_chain (nth hi.hash_buckets b) (m b)
  empty_out : ∀ b, hi.hash_buckets_size ≤ b → m b = []
  disj : ∀ b b', b ≠ b' → ∀ p, p ∈ m b → p ∉ m b'
  gran_pos : 0 < hi.granularity
  gran_le : hi.granularity ≤ 2 ^ 32

/-- Well-formedness of the never-allocated state (as set up by
`internal_init`, and preserved while no insertion has happened). -/
structure InvU (hi : HashIndex) : Prop where
  alloc : hi.allocated = false
  buckets : hi.hash_buckets = [null_index]
  chain : hi.index_chain = [null_index]
  csize : hi.index_chain_size ≤ 2 ^ 64
  pot : ∃ kk ≤ 64, hi.hash_buckets_size = 2 ^ kk
  mask : hi.hash_mask = hi.hash_buckets_size - 1
  lookup : hi.lookup_mask = 0
  gran_pos : 0 < hi.granularity
  gran_le : hi.granularity ≤ 2 ^ 32

/-- Disciplined histories of `insert`/`erase` from a freshly constructed
`hash_index(2^kk, c)`, together with the bookkeeping `m` of which positions
are currently stored in each bucket (the pairs inserted and not subsequently
erased).  The side conditions are the usage discipline the spec itself states
(positions are not the sentinel, a position is erased before being re-inserted,
and an erase either targets a pair present in its bucket or a position stored
nowhere). -/
inductive Trace : HashIndex → (Nat → List Nat) → Prop where
  | init (kk c : Nat) : kk ≤ 64 → c ≤ 2 ^ 64 →
      Trace (internal_init (2 ^ kk) c) (fun _ => [])
  | insert {hi m} (key p : Nat) : Trace hi m →
      p < null_index → (∀ b, p ∉ m b) →
      Trace (insert hi key p)
        (Function.update m (key &&& hi.hash_mask) (p :: m (key &&& hi.hash_mask)))
  | erase_present {hi m} (key p : Nat) : Trace hi m →
      p ∈ m (key &&& hi.hash_mask) →
      Trace (erase hi key p)
        (Function.update m (key &&& hi.hash_mask) ((m (key &&& hi.hash_mask)).erase p))
  | erase_absent {hi m} (key p : Nat) : Trace hi m →
      p < null_index → (∀ b, p ∉ m b) →
      Trace (erase hi key p) m

/-- The public mutating operations, for reachability claims. -/
inductive Op where
  | ins (key index : Nat)
  | ers (key index : Nat)
  | insAt (key index : Nat)
  | ersAt (key index : Nat)
  | clr
  | clrResize (b c : Nat)
  | clrFree
  | setGran (g : Nat)
  | resize (n : Nat)
deriving DecidableEq

/-- Apply one public operation. -/
def applyOp (hi : HashIndex) : Op → HashIndex
  | .ins key index => insert hi key index
  | .ers key index => erase hi key index
  | .insAt key index => insert_at_index hi key index
  | .ersAt key index => erase_and_remove_index hi key index
  | .clr => clear hi
  | .clrResize b c => clear_and_resize hi b c
  | .clrFree => clear_and_free hi
  | .setGran g => set_granularity hi g
  | .resize n => resize_index_chain hi n

/-- Run a sequence of public operations. -/
def execOps (hi : HashIndex) (ops : List Op) : HashIndex := ops.foldl applyOp hi

/-- The asserted preconditions of the operations (`clear_and_resize` requires
a power-of-two bucket count, `set_granularity` a positive granularity). -/
def opWF : Op → Prop
  | .clrResize b _ => is_power_of_two b = true
  | .setGran g => 0 < g
  | _ => True

/-!  Basic lemmas about `nth` and list updates. -/

theorem nth_set_self {l : List Nat} {i : Nat} (v : Nat) (h : i < l.length) :
    nth (l.set i v) i = v := by
  simp [nth, List.getD_eq_getElem?_getD, List.getElem?_set_self, h]

theorem nth_set_ne {l : List Nat} {i j : Nat} (v : Nat) (h : i ≠ j) :
    nth (l.set i v) j = nth l j := by
  simp [nth, List.getD_eq_getElem?_getD, List.getElem?_set_ne, h]

theorem nth_append_left {l r : List Nat} {i : Nat} (h : i < l.length) :
    nth (l ++ r) i = nth l i := by
  simp [nth, List.getD_eq_getElem?_getD, List.getElem?_append_left, h]

theorem nth_replicate {n i : Nat} (v : Nat) (h : i < n) :
    nth (List.replicate n v) i = v := by
  simp [nth, List.getD_eq_getElem?_getD, List.getElem?_replicate, h]

theorem nth_oob {l : List Nat} {i : Nat} (h : l.length ≤ i) : nth l i = null_index :=
  List.getD_eq_default _ _ h

theorem set_oob {l : List Nat} {i : Nat} (v : Nat) (h : l.length ≤ i) : l.set i v = l :=
  List.set_eq_of_length_le h

/-!  Basic lemmas about `ChainList`. -/

theorem chainList_det {chain : List Nat} {h : Nat} {l₁ l₂ : List Nat}
    (c₁ : ChainList chain h l₁) (c₂ : ChainList chain h l₂) : l₁ = l₂ := by
  induction c₁ generalizing l₂ with
  | nil => cases c₂ with
    | nil => rfl
    | cons hn _ _ => exact absurd rfl hn
  | cons hn hlt _ ih =>
    cases c₂ with
    | nil => exact absurd rfl hn
    | cons hn2 hlt2 c2 => exact congrArg _ (ih c2)

theorem chainList_mem_suffix {chain : List Nat} {h x : Nat} {l : List Nat}
    (c : ChainList chain h l) (hx : x ∈ l) :
    ∃ t, ChainList chain x t ∧ t.length ≤ l.length := by
  induction c with
  | nil => cases hx
  | cons hn hlt ctail ih =>
    rcases List.mem_cons.mp hx with rfl | hx
    · exact ⟨_, .cons hn hlt ctail, le_refl _⟩
    · obtain ⟨t, ht, hlen⟩ := ih hx
      exact ⟨t, ht, hlen.trans (Nat.le_succ _)⟩

theorem chainList_nodup {chain : List Nat} {h : Nat} {l : List Nat}
    (c : ChainList chain h l) : l.Nodup := by
  induction c with
  | nil => exact List.nodup_nil
  | cons hn hlt ctail ih =>
    refine List.nodup_cons.mpr ⟨fun hmem => ?_, ih⟩
    obtain ⟨t, ht, hlen⟩ := chainList_mem_suffix ctail hmem
    have := chainList_det (ChainList.cons hn hlt ctail) ht
    subst this
    simp at hlen

theorem chainList_mem_lt {chain : List Nat} {h : Nat} {l : List Nat}
    (c : ChainList chain h l) : ∀ x ∈ l, x < chain.length := by
  induction c with
  | nil => intro x hx; cases hx
  | cons hn hlt _ ih =>
    intro x hx
    rcases List.mem_cons.mp hx with rfl | hx
    · exact hlt
    · exact ih x hx

theorem chainList_mem_ne_null {chain : List Nat} {h : Nat} {l : List Nat}
    (c : ChainList chain h l) : ∀ x ∈ l, x ≠ null_index := by
  induction c with
  | nil => intro x hx; cases hx
  | cons hn _ _ ih =>
    intro x hx
    rcases List.mem_cons.mp hx with rfl | hx
    · exact hn
    · exact ih x hx

theorem chainList_length_le {chain : List Nat} {h : Nat} {l : List Nat}
    (c : ChainList chain h l) : l.length ≤ chain.length := by
  have hnd := chainList_nodup c
  have hsub : l.toFinset ⊆ Finset.range chain.length := by
    intro x hx
    simp only [List.mem_toFinset] at hx
    exact Finset.mem_range.mpr (chainList_mem_lt c x hx)
  have := Finset.card_le_card hsub
  rwa [List.toFinset_card_of_nodup hnd, Finset.card_range] at this

theorem chainList_congr {chain chain' : List Nat} {h : Nat} {l : List Nat}
    (c : ChainList chain h l) (hlen : chain.length ≤ chain'.length)
    (hsame : ∀ x ∈ l, nth chain' x = nth chain x) : ChainList chain' h l := by
  induction c with
  | nil => exact .nil
  | cons hn hlt ctail ih =>
    refine .cons hn (lt_of_lt_of_le hlt hlen) ?_
    rw [hsame _ (List.mem_cons_self _ _)]
    exact ih fun x hx => hsame x (List.mem_cons_of_mem _ hx)

theorem chainList_set_not_mem {chain : List Nat} {h q : Nat} {l : List Nat} (v : Nat)
    (c : ChainList chain h l) (hq : q ∉ l) : ChainList (chain.set q v) h l := by
  refine chainList_congr c (by simp) fun x hx => ?_
  exact nth_set_ne v fun hxq => hq (hxq ▸ hx)

/-!  Bridging lemmas: the branch-free masked lookups of `first`/`next` reduce
to plain array reads in well-formed states. -/

theorem land_full_eq {x : Nat} (h : x < 2 ^ 64) : x &&& full_mask = x := by
  have := Nat.and_pow_two_sub_one_eq_mod x 64
  rw [full_mask, this, Nat.mod_eq_of_lt h]

theorem bucket_lt {hi : HashIndex} {m : Nat → List Nat} (inv : Inv hi m) (key : Nat) :
    key &&& hi.hash_mask < hi.hash_buckets_size := by
  obtain ⟨kk, _, hsz⟩ := inv.pot
  rw [inv.mask, hsz, Nat.and_pow_two_sub_one_eq_mod]
  exact Nat.mod_lt _ (Nat.pos_pow_of_pos kk (by norm_num))

theorem size_le_two_pow {hi : HashIndex} {m : Nat → List Nat} (inv : Inv hi m) :
    hi.hash_buckets_size ≤ 2 ^ 64 := by
  obtain ⟨kk, hkk, hsz⟩ := inv.pot
  rw [hsz]
  exact Nat.pow_le_pow_right (by norm_num) hkk

theorem first_eq {hi : HashIndex} {m : Nat → List Nat} (inv : Inv hi m) (key : Nat) :
    first hi key = nth hi.hash_buckets (key &&& hi.hash_mask) := by
  rw [first, inv.lookup, land_full_eq]
  exact lt_of_lt_of_le (bucket_lt inv key) (size_le_two_pow inv)

theorem next_eq {hi : HashIndex} {m : Nat → List Nat} (inv : Inv hi m) {i : Nat}
    (h : i < hi.index_chain.length) : next hi i = nth hi.index_chain i := by
  rw [next, inv.lookup, land_full_eq]
  exact lt_of_lt_of_le h (inv.clen ▸ inv.csize)

theorem chainList_traverse {hi : HashIndex} {m : Nat → List Nat} (inv : Inv hi m)
    {h : Nat} {l : List Nat} (c : ChainList hi.index_chain h l) :
    ∀ {fuel : Nat}, l.length ≤ fuel → traverse hi fuel h = l := by
  induction c with
  | nil =>
    intro fuel _
    cases fuel with
    | zero => rfl
    | succ f => simp [traverse]
  | cons hn hlt ctail ih =>
    intro fuel hf
    cases fuel with
    | zero => simp at hf
    | succ f =>
      rw [traverse, if_neg hn, next_eq inv hlt]
      exact congrArg _ (ih (Nat.succ_le_succ_iff.mp hf))

/-!  Characterization of the walk inside `erase`. -/

theorem eraseWalk_length (chain : List Nat) (i index : Nat) :
    ∀ fuel, (eraseWalk chain i index fuel).length = chain.length := by
  intro fuel
  induction fuel generalizing i with
  | zero => rfl
  | succ f ih =>
    rw [eraseWalk]
    split
    · rfl
    · split
      · exact List.length_set ..
      · exact ih _

theorem chainList_head_mem {chain : List Nat} {q : Nat} {l : List Nat}
    (c : ChainList chain q l) : q = null_index ∨ q ∈ l := by
  cases c with
  | nil => exact Or.inl rfl
  | cons => exact Or.inr (List.mem_cons_self _ _)

theorem chainList_cons_inv {chain : List Nat} {q : Nat} {l : List Nat}
    (c : ChainList chain q l) (hq : q ≠ null_index) :
    ∃ l1, l = q :: l1 ∧ q < chain.length ∧ ChainList chain (nth chain q) l1 := by
  cases c with
  | nil => exact absurd rfl hq
  | cons hn hlt ctail => exact ⟨_, rfl, hlt, ctail⟩

theorem eraseWalk_not_found {chain : List Nat} {i p : Nat} {l : List Nat}
    (c : ChainList chain i l) (hp : p ∉ l) (hpn : p ≠ null_index) :
    ∀ fuel, eraseWalk chain i p fuel = chain := by
  induction c with
  | nil =>
    intro fuel
    cases fuel with
    | zero => rfl
    | succ f => rw [eraseWalk, if_pos rfl]
  | cons hn hlt ctail ih =>
    rename_i h0 l0
    intro fuel
    cases fuel with
    | zero => rfl
    | succ f =>
      rw [eraseWalk, if_neg hn]
      have hq : nth chain h0 ≠ p := by
        intro he
        rcases chainList_head_mem ctail with hnl | hmem
        · exact hpn (he ▸ hnl)
        · exact hp (List.mem_cons_of_mem _ (he ▸ hmem))
      rw [if_neg hq]
      exact ih (fun hx => hp (List.mem_cons_of_mem _ hx)) _

theorem eraseWalk_found_spec {chain : List Nat} {h p : Nat} {l : List Nat}
    (c : ChainList chain h l) (hp : p ∈ l) (hne : h ≠ p) :
    ∀ {fuel : Nat}, l.length ≤ fuel →
      ∃ i0 ∈ l, nth chain i0 = p ∧
        eraseWalk chain h p fuel = chain.set i0 (nth chain p) := by
  induction c with
  | nil => cases hp
  | cons hn hlt ctail ih =>
    rename_i h0 l0
    intro fuel hf
    cases fuel with
    | zero => simp at hf
    | succ f =>
      rw [eraseWalk, if_neg hn]
      by_cases hq : nth chain h0 = p
      · exact ⟨h0, List.mem_cons_self _ _, hq, by rw [if_pos hq]⟩
      · have hpl : p ∈ l0 := by
          rcases List.mem_cons.mp hp with rfl | hx
          · exact absurd rfl hne
          · exact hx
        obtain ⟨i0, hi0mem, hi0, hwalk⟩ := ih hpl hq (Nat.succ_le_succ_iff.mp hf)
        exact ⟨i0, List.mem_cons_of_mem _ hi0mem, hi0, by rw [if_neg hq]; exact hwalk⟩

theorem eraseWalk_found_chainList {chain : List Nat} {h p : Nat} {l : List Nat}
    (c : ChainList chain h l) (hp : p ∈ l) (hne : h ≠ p) :
    ∀ {fuel : Nat}, l.length ≤ fuel →
      ChainList ((eraseWalk chain h p fuel).set p null_index) h (l.erase p) := by
  induction c with
  | nil => cases hp
  | cons hn hlt ctail ih =>
    rename_i h0 l0
    intro fuel hf
    cases fuel with
    | zero => simp at hf
    | succ f =>
      have hpl : p ∈ l0 := by
        rcases List.mem_cons.mp hp with rfl | hx
        · exact absurd rfl hne
        · exact hx
      have hnodup := chainList_nodup (ChainList.cons hn hlt ctail)
      have hh0 : h0 ∉ l0 := (List.nodup_cons.mp hnodup).1
      have hnd0 : l0.Nodup := (List.nodup_cons.mp hnodup).2
      have herase : (h0 :: l0).erase p = h0 :: l0.erase p :=
        List.erase_cons_tail (by simpa using hne)
      rw [eraseWalk, if_neg hn, herase]
      by_cases hq : nth chain h0 = p
      · rw [if_pos hq]
        have hpn : p ≠ null_index := chainList_mem_ne_null ctail p hpl
        obtain ⟨l1, hl0, hplt, c1⟩ := chainList_cons_inv (hq ▸ ctail) hpn
        subst hl0
        have hpnotl1 : p ∉ l1 := (List.nodup_cons.mp hnd0).1
        have hh0l1 : h0 ∉ l1 := fun hx => hh0 (List.mem_cons_of_mem _ hx)
        rw [show (p :: l1).erase p = l1 from List.erase_cons_head ..]
        refine ChainList.cons hn (by simpa using hlt) ?_
        rw [nth_set_ne _ (fun he => hne he.symm), nth_set_self _ hlt]
        exact chainList_set_not_mem null_index
          (chainList_set_not_mem (nth chain p) c1 hh0l1) hpnotl1
      · rw [if_neg hq]
        have ihres := ih hpl hq (Nat.succ_le_succ_iff.mp hf)
        obtain ⟨i0, hi0mem, hi0, hwalk⟩ :=
          eraseWalk_found_spec ctail hpl hq (Nat.succ_le_succ_iff.mp hf)
        refine ChainList.cons hn ?_ ?_
        · rw [List.length_set, eraseWalk_length]
          exact hlt
        · have hh0p : p ≠ h0 := fun he => hne he.symm
          have hh0i0 : i0 ≠ h0 := fun he => hh0 (he ▸ hi0mem)
          have hnth : nth ((eraseWalk chain (nth chain h0) p f).set p null_index) h0
              = nth chain h0 := by
            rw [nth_set_ne _ hh0p, hwalk, nth_set_ne _ hh0i0]
          rw [hnth]
          exact ihres

/-!  Invariant preservation for `insert`. -/

theorem insert_alloc_state {hi : HashIndex} {m : Nat → List Nat} (inv : Inv hi m)
    (key p : Nat) (hp : p < null_index) :
    ∃ ns chain1,
      insert hi key p = { hi with
          hash_buckets := hi.hash_buckets.set (key &&& hi.hash_mask) p
          index_chain := chain1.set p (nth hi.hash_buckets (key &&& hi.hash_mask))
          index_chain_size := ns } ∧
      chain1.length = ns ∧ hi.index_chain_size ≤ ns ∧ p < ns ∧ ns ≤ 2 ^ 64 ∧
      (∀ x, x < hi.index_chain_size → nth chain1 x = nth hi.index_chain x) := by
  by_cases hle : hi.index_chain_size ≤ p
  · have hn : ¬ (p + 1 ≤ hi.index_chain_size) := by omega
    set g := hi.granularity with hg
    set md := (p + 1) % g with hmd
    set ns := if md = 0 then p + 1 else p + 1 + g - md with hns
    have hmdlt : md < g := hmd ▸ Nat.mod_lt _ inv.gran_pos
    have hns_ge : p + 1 ≤ ns := by
      rw [hns]
      split
      · exact le_refl _
      · omega
    have hns_le2 : ns ≤ p + 1 + g := by
      rw [hns]
      split
      · omega
      · omega
    have hp1 : p + 1 ≤ 2 ^ 32 - 1 := by
      have := hp
      rw [null_index] at this
      omega
    have h64 : (2 : Nat) ^ 32 - 1 + 2 ^ 32 ≤ 2 ^ 64 := by norm_num
    have hg32 : g ≤ 2 ^ 32 := inv.gran_le
    refine ⟨ns, hi.index_chain ++ List.replicate (ns - hi.index_chain_size) null_index,
      ?_, ?_, ?_, ?_, ?_, ?_⟩
    · simp only [insert, inv.alloc, resize_index_chain]
      rw [if_neg (by simp), if_pos hle, if_neg hn]
      rw [if_neg (by simp)]
    · rw [List.length_append, List.length_replicate, inv.clen]
      omega
    · omega
    · omega
    · omega
    · intro x hx
      exact nth_append_left (inv.clen ▸ hx)
  · refine ⟨hi.index_chain_size, hi.index_chain, ?_, inv.clen, le_refl _, by omega,
      inv.csize, fun x _ => rfl⟩
    simp only [insert, inv.alloc]
    rw [if_neg (by simp), if_neg hle, inv.alloc]

theorem mem_update_iff {m : Nat → List Nat} {bk : Nat} {L : List Nat} {b q : Nat} :
    q ∈ Function.update m bk L b ↔ (b = bk ∧ q ∈ L) ∨ (b ≠ bk ∧ q ∈ m b) := by
  by_cases hb : b = bk
  · subst hb
    simp [Function.update_same]
  · simp [Function.update_noteq hb, hb]

theorem insert_inv {hi : HashIndex} {m : Nat → List Nat} (inv : Inv hi m) {key p : Nat}
    (hp : p < null_index) (hfresh : ∀ b, p ∉ m b) :
    Inv (insert hi key p)
      (Function.update m (key &&& hi.hash_mask) (p :: m (key &&& hi.hash_mask))) := by
  have hbk : key &&& hi.hash_mask < hi.hash_buckets_size := bucket_lt inv key
  set bk := key &&& hi.hash_mask with hbkdef
  obtain ⟨ns, chain1, hstate, hlen1, hns_ge, hpns, hns64, hnth1⟩ :=
    insert_alloc_state inv key p hp
  have hpn : p ≠ null_index := Nat.ne_of_lt hp
  have hchain2len : (chain1.set p (nth hi.hash_buckets bk)).length = ns := by
    rw [List.length_set, hlen1]
  have hlift : ∀ {h0 : Nat} {l : List Nat}, ChainList hi.index_chain h0 l → p ∉ l →
      ChainList (chain1.set p (nth hi.hash_buckets bk)) h0 l := by
    intro h0 l c hpl
    have c1 : ChainList chain1 h0 l := by
      refine chainList_congr c (by rw [hlen1, ← inv.clen] at *; omega) ?_
      intro x hx
      exact hnth1 x (inv.clen ▸ chainList_mem_lt c x hx)
    exact chainList_set_not_mem _ c1 hpl
  rw [hstate]
  refine ⟨inv.alloc, ?_, ?_, hns64, inv.pot, inv.mask, inv.lookup, ?_, ?_, ?_,
    inv.gran_pos, inv.gran_le⟩
  · simpa using inv.blen
  · simpa using hchain2len
  · intro b hb
    simp only at hb ⊢
    by_cases hbbk : b = bk
    · subst hbbk
      rw [Function.update_same, nth_set_self _ (inv.blen ▸ hbk)]
      refine ChainList.cons hpn (by rw [hchain2len]; exact hpns) ?_
      rw [nth_set_self _ (by rw [hlen1]; exact hpns)]
      exact hlift (inv.chains _ hb) (hfresh _)
    · rw [Function.update_noteq hbbk, nth_set_ne _ (fun he => hbbk he.symm)]
      exact hlift (inv.chains b hb) (hfresh b)
  · intro b hb
    simp only at hb
    have hbbk : b ≠ bk := fun he => by omega
    rw [Function.update_noteq hbbk]
    exact inv.empty_out b hb
  · intro b b' hne q hq hq'
    rcases mem_update_iff.mp hq with ⟨rfl, hqL⟩ | ⟨hbne, hqm⟩
    · rcases mem_update_iff.mp hq' with ⟨rfl, _⟩ | ⟨hbne', hqm'⟩
      · exact hne rfl
      · rcases List.mem_cons.mp hqL with rfl | hqm
        · exact hfresh b' hqm'
        · exact inv.disj _ _ hne q hqm hqm'
    · rcases mem_update_iff.mp hq' with ⟨rfl, hqL'⟩ | ⟨hbne', hqm'⟩
      · rcases List.mem_cons.mp hqL' with rfl | hqm'
        · exact hfresh b hqm
        · exact inv.disj _ _ hne q hqm hqm'
      · exact inv.disj _ _ hne q hqm hqm'

theorem bucket_ltU {hi : HashIndex} (u : InvU hi) (key : Nat) :
    key &&& hi.hash_mask < hi.hash_buckets_size := by
  obtain ⟨kk, _, hsz⟩ := u.pot
  rw [u.mask, hsz, Nat.and_pow_two_sub_one_eq_mod]
  exact Nat.mod_lt _ (Nat.pos_pow_of_pos kk (by norm_num))

theorem insert_unalloc_state {hi : HashIndex} (h : hi.allocated = false) (key p : Nat) :
    insert hi key p =
      { hash_buckets := (List.replicate hi.hash_buckets_size null_index).set
          (key &&& (hi.hash_buckets_size - 1)) p
        index_chain := (List.replicate
            (if hi.index_chain_size ≤ p then p + 1 else hi.index_chain_size) null_index).set p
          (nth (List.replicate hi.hash_buckets_size null_index)
            (key &&& (hi.hash_buckets_size - 1)))
        hash_buckets_size := hi.hash_buckets_size
        index_chain_size := if hi.index_chain_size ≤ p then p + 1 else hi.index_chain_size
        hash_mask := hi.hash_buckets_size - 1
        lookup_mask := full_mask
        granularity := hi.granularity
        allocated := true } := by
  simp only [insert, h, internal_allocate, if_true]

theorem insert_invU {hi : HashIndex} (u : InvU hi) {key p : Nat} (hp : p < null_index) :
    Inv (insert hi key p)
      (Function.update (fun _ => ([] : List Nat)) (key &&& hi.hash_mask) [p]) := by
  have hbk : key &&& hi.hash_mask < hi.hash_buckets_size := bucket_ltU u key
  set bk := key &&& hi.hash_mask with hbkdef
  have hmask : hi.hash_buckets_size - 1 = hi.hash_mask := u.mask.symm
  have hpn : p ≠ null_index := Nat.ne_of_lt hp
  set c := if hi.index_chain_size ≤ p then p + 1 else hi.index_chain_size with hc
  have hpc : p < c := by
    rw [hc]
    split
    · omega
    · omega
  have hc64 : c ≤ 2 ^ 64 := by
    have := u.csize
    have hp32 : p + 1 ≤ 2 ^ 32 := by
      have := hp
      rw [null_index] at this
      omega
    have h3264 : (2 : Nat) ^ 32 ≤ 2 ^ 64 := by norm_num
    rw [hc]
    split
    · omega
    · omega
  have hbn : nth (List.replicate hi.hash_buckets_size null_index) bk = null_index :=
    nth_replicate _ hbk
  rw [insert_unalloc_state u.alloc, hmask]
  refine ⟨rfl, ?_, ?_, hc64, u.pot, hmask.symm, rfl, ?_, ?_, ?_, u.gran_pos, u.gran_le⟩
  · simp
  · simp [hc]
  · intro b hb
    simp only at hb ⊢
    by_cases hbbk : b = bk
    · subst hbbk
      rw [Function.update_same, nth_set_self _ (by simpa using hbk)]
      refine ChainList.cons hpn (by simpa using hpc) ?_
      rw [nth_set_self _ (by simpa using hpc), hbn]
      exact ChainList.nil
    · rw [Function.update_noteq hbbk, nth_set_ne _ (fun he => hbbk he.symm),
        nth_replicate _ hb, hbn]
      exact ChainList.nil
  · intro b hb
    simp only at hb
    have hbbk : b ≠ bk := by omega
    rw [Function.update_noteq hbbk]
  · intro b b' hne q hq hq'
    rcases mem_update_iff.mp hq with ⟨rfl, hqL⟩ | ⟨hbne, hqm⟩
    · rcases mem_update_iff.mp hq' with ⟨rfl, _⟩ | ⟨hbne', hqm'⟩
      · exact hne rfl
      · simp at hqm'
    · simp at hqm

/-!  Invariant preservation for `erase`. -/

theorem erase_unalloc {hi : HashIndex} (h : hi.allocated = false) (key p : Nat) :
    erase hi key p = hi := by
  simp [erase, h]

theorem erase_alloc_state {hi : HashIndex} (h : hi.allocated = true) (key p : Nat) :
    erase hi key p =
      { hi with
          hash_buckets :=
            if nth hi.hash_buckets (key &&& hi.hash_mask) = p then
              hi.hash_buckets.set (key &&& hi.hash_mask) (nth hi.index_chain p)
            else hi.hash_buckets
          index_chain :=
            (if nth hi.hash_buckets (key &&& hi.hash_mask) = p then hi.index_chain
             else eraseWalk hi.index_chain (nth hi.hash_buckets (key &&& hi.hash_mask)) p
               (hi.index_chain.length + 1)).set p null_index } := by
  simp only [erase, h]
  rw [if_neg (by simp)]

theorem erase_present_inv {hi : HashIndex} {m : Nat → List Nat} (inv : Inv hi m)
    {key p : Nat} (hmem : p ∈ m (key &&& hi.hash_mask)) :
    Inv (erase hi key p)
      (Function.update m (key &&& hi.hash_mask) ((m (key &&& hi.hash_mask)).erase p)) := by
  have hbk : key &&& hi.hash_mask < hi.hash_buckets_size := bucket_lt inv key
  set bk := key &&& hi.hash_mask with hbkdef
  have c := inv.chains bk hbk
  have hpn : p ≠ null_index := chainList_mem_ne_null c p hmem
  have hplt : p < hi.index_chain.length := chainList_mem_lt c p hmem
  have hnd := chainList_nodup c
  have hsub : ∀ q, q ∈ (m bk).erase p → q ∈ m bk := fun q hq => List.mem_of_mem_erase hq
  rw [erase_alloc_state inv.alloc]
  by_cases hhead : nth hi.hash_buckets bk = p
  · rw [if_pos hhead, if_pos hhead]
    obtain ⟨l1, hl1, hplt2, c1⟩ := chainList_cons_inv (hhead ▸ c) hpn
    have hpl1 : p ∉ l1 := by
      rw [hl1] at hnd
      exact (List.nodup_cons.mp hnd).1
    have herase1 : (m bk).erase p = l1 := by
      rw [hl1]
      exact List.erase_cons_head ..
    refine ⟨inv.alloc, by simpa using inv.blen, by simpa using inv.clen, inv.csize,
      inv.pot, inv.mask, inv.lookup, ?_, ?_, ?_, inv.gran_pos, inv.gran_le⟩
    · intro b hb
      simp only at hb ⊢
      by_cases hbbk : b = bk
      · subst hbbk
        rw [Function.update_same, nth_set_self _ (inv.blen ▸ hbk), herase1]
        exact chainList_set_not_mem _ c1 hpl1
      · rw [Function.update_noteq hbbk, nth_set_ne _ (fun he => hbbk he.symm)]
        have hpm : p ∉ m b := inv.disj bk b (fun he => hbbk he.symm) p hmem
        exact chainList_set_not_mem _ (inv.chains b hb) hpm
    · intro b hb
      simp only at hb
      have hbbk : b ≠ bk := by omega
      rw [Function.update_noteq hbbk]
      exact inv.empty_out b hb
    · intro b b' hne q hq hq'
      rcases mem_update_iff.mp hq with ⟨rfl, hqL⟩ | ⟨hbne, hqm⟩
      · rcases mem_update_iff.mp hq' with ⟨rfl, _⟩ | ⟨hbne', hqm'⟩
        · exact hne rfl
        · exact inv.disj _ _ hne q (hsub q hqL) hqm'
      · rcases mem_update_iff.mp hq' with ⟨rfl, hqL'⟩ | ⟨hbne', hqm'⟩
        · exact inv.disj _ _ hne q hqm (hsub q hqL')
        · exact inv.disj _ _ hne q hqm hqm'
  · rw [if_neg hhead, if_neg hhead]
    have hflen : (m bk).length ≤ hi.index_chain.length + 1 :=
      (chainList_length_le c).trans (Nat.le_succ _)
    have hwalkc := eraseWalk_found_chainList c hmem (fun he => hhead he) hflen
    obtain ⟨i0, hi0mem, hi0, hwalk⟩ := eraseWalk_found_spec c hmem (fun he => hhead he) hflen
    have hwl : (eraseWalk hi.index_chain (nth hi.hash_buckets bk) p
        (hi.index_chain.length + 1)).length = hi.index_chain.length :=
      eraseWalk_length ..
    refine ⟨inv.alloc, inv.blen, by simpa [hwl] using inv.clen, inv.csize,
      inv.pot, inv.mask, inv.lookup, ?_, ?_, ?_, inv.gran_pos, inv.gran_le⟩
    · intro b hb
      simp only at hb ⊢
      by_cases hbbk : b = bk
      · subst hbbk
        rw [Function.update_same]
        exact hwalkc
      · rw [Function.update_noteq hbbk]
        have hpm : p ∉ m b := inv.disj bk b (fun he => hbbk he.symm) p hmem
        have hi0m : i0 ∉ m b := inv.disj bk b (fun he => hbbk he.symm) i0 hi0mem
        refine chainList_congr (inv.chains b hb) (by simp [hwl]) ?_
        intro x hx
        rw [hwalk, nth_set_ne _ (fun he => hpm (by rw [he]; exact hx)),
          nth_set_ne _ (fun he => hi0m (by rw [he]; exact hx))]
    · intro b hb
      simp only at hb
      have hbbk : b ≠ bk := by omega
      rw [Function.update_noteq hbbk]
      exact inv.empty_out b hb
    · intro b b' hne q hq hq'
      rcases mem_update_iff.mp hq with ⟨rfl, hqL⟩ | ⟨hbne, hqm⟩
      · rcases mem_update_iff.mp hq' with ⟨rfl, _⟩ | ⟨hbne', hqm'⟩
        · exact hne rfl
        · exact inv.disj _ _ hne q (hsub q hqL) hqm'
      · rcases mem_update_iff.mp hq' with ⟨rfl, hqL'⟩ | ⟨hbne', hqm'⟩
        · exact inv.disj _ _ hne q hqm (hsub q hqL')
        · exact inv.disj _ _ hne q hqm hqm'

theorem erase_absent_inv {hi : HashIndex} {m : Nat → List Nat} (inv : Inv hi m)
    {key p : Nat} (hp : p < null_index) (hfresh : ∀ b, p ∉ m b) :
    Inv (erase hi key p) m := by
  have hbk : key &&& hi.hash_mask < hi.hash_buckets_size := bucket_lt inv key
  set bk := key &&& hi.hash_mask with hbkdef
  have c := inv.chains bk hbk
  have hpn : p ≠ null_index := Nat.ne_of_lt hp
  have hhead : nth hi.hash_buckets bk ≠ p := by
    intro he
    rcases chainList_head_mem c with hnl | hm
    · exact hpn (he ▸ hnl)
    · exact hfresh bk (he ▸ hm)
  have hwalk := eraseWalk_not_found c (hfresh bk) hpn (hi.index_chain.length + 1)
  rw [erase_alloc_state inv.alloc, if_neg hhead, if_neg hhead, hwalk]
  refine ⟨inv.alloc, inv.blen, by simpa using inv.clen, inv.csize,
    inv.pot, inv.mask, inv.lookup, ?_, inv.empty_out, inv.disj,
    inv.gran_pos, inv.gran_le⟩
  intro b hb
  simp only at hb ⊢
  exact chainList_set_not_mem _ (inv.chains b hb) (hfresh b)

/-!  The main trace invariant: every disciplined history lands in a
well-formed state whose bucket chains are exactly the bookkeeping model. -/

theorem trace_inv {hi : HashIndex} {m : Nat → List Nat} (t : Trace hi m) :
    (InvU hi ∧ m = fun _ => []) ∨ Inv hi m := by
  induction t with
  | init kk c hkk hc =>
    refine Or.inl ⟨⟨rfl, rfl, rfl, hc, ⟨kk, hkk, rfl⟩, rfl, rfl,
      by simp [internal_init], by norm_num [internal_init]⟩, rfl⟩
  | insert key p t hp hfresh ih =>
    rcases ih with ⟨u, rfl⟩ | inv
    · exact Or.inr (insert_invU u hp)
    · exact Or.inr (insert_inv inv hp fun b => hfresh b)
  | erase_present key p t hmem ih =>
    rcases ih with ⟨u, rfl⟩ | inv
    · simp at hmem
    · exact Or.inr (erase_present_inv inv hmem)
  | erase_absent key p t hp hfresh ih =>
    rcases ih with ⟨u, rfl⟩ | inv
    · rw [erase_unalloc u.alloc]
      exact Or.inl ⟨u, rfl⟩
    · exact Or.inr (erase_absent_inv inv hp fun b => hfresh b)

/-!  Claim theorems. -/

/-- C6: on a `hash_index` constructed with bucket count 4 (hash mask 3),
`insert(0,0); insert(4,1); insert(8,2)` (all colliding into bucket 0) gives
`first(0) = 2`, `next(2) = 1`, `next(1) = 0`, `next(0) = null_index`:
`insert` prepends in LIFO order. -/
theorem C6_lifo_collision_scenario :
    first (insert (insert (insert (internal_init 4 4) 0 0) 4 1) 8 2) 0 = 2 ∧
    next (insert (insert (insert (internal_init 4 4) 0 0) 4 1) 8 2) 2 = 1 ∧
    next (insert (insert (insert (internal_init 4 4) 0 0) 4 1) 8 2) 1 = 0 ∧
    next (insert (insert (insert (internal_init 4 4) 0 0) 4 1) 8 2) 0 = null_index := by
  decide

/-- C9: after move construction the destination is deep-equal (`operator==`)
to the pre-move source, and the moved-from source reports
`is_allocated() = false` and `allocated_bytes() = 0`. -/
theorem C9_move_semantics (hi : HashIndex) :
    hash_index_beq (move_construct hi).1 hi = true ∧
    is_allocated (move_construct hi).2 = false ∧
    allocated_bytes (move_construct hi).2 = 0 := by
  refine ⟨?_, rfl, rfl⟩
  simp [move_construct, hash_index_swap, hash_index_beq, List.all_eq_true]

/-- C10: `insert_at_index` on a never-allocated `hash_index` is a silent
no-op (it returns the state unchanged), unlike `insert`, which allocates on
first use. -/
theorem C10_insert_at_index_unallocated_noop {hi : HashIndex} (key p : Nat)
    (h : hi.allocated = false) :
    insert_at_index hi key p = hi ∧ (insert hi key p).allocated = true := by
  constructor
  · simp [insert_at_index, h]
  · simp [insert, h, internal_allocate]

/-- Witness for C10 at the freshly constructed `hash_index(4, 4)`. -/
theorem C10_witness :
    insert_at_index (internal_init 4 4) 0 5 = internal_init 4 4 ∧
    (insert (internal_init 4 4) 0 5).allocated = true :=
  C10_insert_at_index_unallocated_noop 0 5 rfl

/-- C4: the distribution metric is claimed to always lie in [0,100], but with
4 buckets and 12 positions all inserted under hash 0 the code computes
`100 - error*100/total = 100 - 14*100/12 = -16` as a signed `long` and returns
it converted to the unsigned `size_type`, i.e. `2^64 - 16`, far outside
[0,100].  This contradicts the function's own documentation comment. -/
theorem C4_distribution_out_of_range :
    compute_distribution_percentage
      ((List.range 12).foldl (fun h i => insert h 0 i) (internal_init 4 16)) =
      2 ^ 64 - 16 ∧
    100 < compute_distribution_percentage
      ((List.range 12).foldl (fun h i => insert h 0 i) (internal_init 4 16)) := by
  constructor
  · decide
  · decide

/-- C2 counterexample: with chain capacity `c = 4`, granularity `g = 4`,
inserting position `p = 4` (growth is required and `(p+1-c) % g = 1 ≠ 0`) the
code yields capacity 8, while the claimed formula `c + g - ((p+1-c) % g)`
gives 7. -/
theorem C2_counterexample :
    (set_granularity (insert (internal_init 4 4) 0 0) 4).index_chain_size = 4 ∧
    (set_granularity (insert (internal_init 4 4) 0 0) 4).granularity = 4 ∧
    (set_granularity (insert (internal_init 4 4) 0 0) 4).allocated = true ∧
    (4 + 1 - 4) % 4 ≠ 0 ∧
    (insert (set_granularity (insert (internal_init 4 4) 0 0) 4) 0 4).index_chain_size = 8 ∧
    4 + 4 - ((4 + 1 - 4) % 4) = 7 := by
  decide

/-- C2 (amended): inserting position `p` into an allocated `hash_index` with
chain capacity `c ≤ p` and positive granularity `g` grows the chain to `p+1`
rounded up to the next multiple of `g`: exactly `p+1` when `(p+1) % g = 0`,
else `p + 1 + g - ((p+1) % g)` (the rounding is relative to the absolute
requested size `p+1`, not to the current capacity `c`). -/
theorem C2_growth_rounding {hi : HashIndex} (key p : Nat)
    (halloc : hi.allocated = true) (_hg : 0 < hi.granularity)
    (hle : hi.index_chain_size ≤ p) :
    (insert hi key p).index_chain_size =
      if (p + 1) % hi.granularity = 0 then p + 1
      else p + 1 + hi.granularity - (p + 1) % hi.granularity := by
  simp only [insert, halloc]
  rw [if_neg (by simp), if_pos hle]
  simp only [resize_index_chain]
  rw [if_neg (by omega), if_neg (by simp [halloc])]

/-- Witness for C2: capacity 4, granularity 4, inserting position 4 gives
capacity 8. -/
theorem C2_witness :
    (insert (set_granularity (insert (internal_init 4 4) 0 0) 4) 0 4).index_chain_size = 8 := by
  have h := @C2_growth_rounding (set_granularity (insert (internal_init 4 4) 0 0) 4)
    0 4 (by decide) (by decide) (by decide)
  rw [h]
  decide

/-- C1 counterexample: after `insert(0,0); insert(0,1); insert(1,1)` on a
4-bucket table, the pair `(0,0)` has been inserted and never erased, yet the
complete traversal of bucket `0 & 3` (fuel 10 far exceeds its length; the
traversal ends at the sentinel) visits exactly `[1]` and never reaches
position 0: re-inserting position 1 under a different hash detached the rest
of bucket 0's chain. -/
theorem C1_counterexample :
    traverse (insert (insert (insert (internal_init 4 4) 0 0) 0 1) 1 1) 10
      (first (insert (insert (insert (internal_init 4 4) 0 0) 0 1) 1 1) 0) = [1] ∧
    0 ∉ traverse (insert (insert (insert (internal_init 4 4) 0 0) 0 1) 1 1) 10
      (first (insert (insert (insert (internal_init 4 4) 0 0) 0 1) 1 1) 0) := by
  decide

/-- C1 (amended): along every disciplined history of `insert`/`erase` (each
inserted position is not currently stored anywhere and is not the sentinel;
each erase targets a pair present in its bucket or a position stored
nowhere), every (hash, position) pair inserted and not subsequently erased is
reached by the traversal from `first(hash)` following `next`, before the
sentinel. -/
theorem C1_inserted_pair_reachable {hi : HashIndex} {m : Nat → List Nat} {key p : Nat}
    (t : Trace hi m) (hp : p ∈ m (key &&& hi.hash_mask)) :
    p ∈ traverse hi (hi.index_chain.length + 1) (first hi key) := by
  rcases trace_inv t with ⟨u, rfl⟩ | inv
  · simp at hp
  · have hbk := bucket_lt inv key
    have c := inv.chains _ hbk
    rw [first_eq inv, chainList_traverse inv c ((chainList_length_le c).trans (Nat.le_succ _))]
    exact hp

/-- Witness for C1: after the single disciplined insert of `(0, 0)` into a
fresh `hash_index(4, 4)`, position 0 is reached from `first(0)`. -/
theorem C1_witness :
    0 ∈ traverse (insert (internal_init 4 4) 0 0)
      ((insert (internal_init 4 4) 0 0).index_chain.length + 1)
      (first (insert (internal_init 4 4) 0 0) 0) := by
  have t0 : Trace (internal_init 4 4) (fun _ => []) :=
    Trace.init 2 4 (by norm_num) (by norm_num)
  have t1 := Trace.insert 0 0 t0 (by norm_num [null_index]) (fun b => List.not_mem_nil _)
  refine C1_inserted_pair_reachable t1 ?_
  simp [Function.update]

/-- C3 counterexample: in the state reached by `insert(0,1); insert(0,0)`
(bucket 0's chain is `0 → 1`), calling `erase(1, 0)` with position 0 — which
is within chain capacity but absent from bucket `1 & 3`'s (empty) chain — is
claimed to leave the structure unchanged; in fact it resets the chain slot of
position 0 to the sentinel, altering the structure (and corrupting bucket 0's
chain). -/
theorem C3_counterexample :
    (0 : Nat) < (insert (insert (internal_init 4 4) 0 1) 0 0).index_chain_size ∧
    traverse (insert (insert (internal_init 4 4) 0 1) 0 0) 5
      (first (insert (insert (internal_init 4 4) 0 1) 0 0) 1) = [] ∧
    erase (insert (insert (internal_init 4 4) 0 1) 0 0) 1 0 ≠
      insert (insert (internal_init 4 4) 0 1) 0 0 := by
  decide

/-- C3 (amended): erasing a position that is not stored in the chain of
bucket `hash & hash_mask` of a well-formed allocated `hash_index` leaves the
bucket table and every other chain slot unchanged, but unconditionally resets
the chain slot at `position` to the sentinel (so it is a no-op on that
bucket's chain, not on the whole structure). -/
theorem C3_erase_absent_resets_slot {hi : HashIndex} {m : Nat → List Nat} {key p : Nat}
    (inv : Inv hi m) (hp : p < null_index) (hnot : p ∉ m (key &&& hi.hash_mask)) :
    erase hi key p = { hi with index_chain := hi.index_chain.set p null_index } := by
  have hbk := bucket_lt inv key
  have c := inv.chains _ hbk
  have hpn : p ≠ null_index := Nat.ne_of_lt hp
  have hhead : nth hi.hash_buckets (key &&& hi.hash_mask) ≠ p := by
    intro he
    rcases chainList_head_mem c with hnl | hm
    · exact hpn (he ▸ hnl)
    · exact hnot (he ▸ hm)
  rw [erase_alloc_state inv.alloc, if_neg hhead, if_neg hhead,
    eraseWalk_not_found c hnot hpn]

/-- Witness for C3: concrete instance of the amended statement in the state
reached by `insert(0,1); insert(0,0)`, erasing `(1, 0)`. -/
theorem C3_witness :
    erase (insert (insert (internal_init 4 4) 0 1) 0 0) 1 0 =
      { insert (insert (internal_init 4 4) 0 1) 0 0 with
          index_chain :=
            (insert (insert (internal_init 4 4) 0 1) 0 0).index_chain.set 0 null_index } := by
  have t0 : Trace (internal_init 4 4) (fun _ => []) :=
    Trace.init 2 4 (by norm_num) (by norm_num)
  have hm0 : (internal_init 4 4).hash_mask = 3 := by decide
  have hm1 : (insert (internal_init 4 4) 0 1).hash_mask = 3 := by decide
  have hm2 : (insert (insert (internal_init 4 4) 0 1) 0 0).hash_mask = 3 := by decide
  have t1 := Trace.insert 0 1 t0 (by norm_num [null_index]) (fun b => List.not_mem_nil _)
  have hfresh : ∀ b, (0 : Nat) ∉
      Function.update (fun _ => ([] : List Nat)) (0 &&& (internal_init 4 4).hash_mask) [1] b := by
    intro b
    simp [hm0, Function.update]
  have t2 := Trace.insert 0 0 t1 (by norm_num [null_index]) hfresh
  rcases trace_inv t2 with ⟨u, _⟩ | inv
  · exact absurd u.alloc (by decide)
  · refine C3_erase_absent_resets_slot inv (by norm_num [null_index]) ?_
    simp [hm0, hm1, hm2, Function.update]

/-- C8: erasing a pair `(hash, position)` that is present in its bucket's
chain of a well-formed allocated `hash_index` makes the traversal from
`first(hash)` following `next` never reach `position` again. -/
theorem C8_erased_pair_unreachable {hi : HashIndex} {m : Nat → List Nat} {key p : Nat}
    (inv : Inv hi m) (hmem : p ∈ m (key &&& hi.hash_mask)) :
    p ∉ traverse (erase hi key p) ((erase hi key p).index_chain.length + 1)
      (first (erase hi key p) key) := by
  have hmask : (erase hi key p).hash_mask = hi.hash_mask := by
    rw [erase_alloc_state inv.alloc]
  have inv2 := erase_present_inv inv hmem
  have hbk2 := bucket_lt inv2 key
  have c2 := inv2.chains _ hbk2
  rw [first_eq inv2,
    chainList_traverse inv2 c2 ((chainList_length_le c2).trans (Nat.le_succ _)),
    hmask, Function.update_same]
  exact (chainList_nodup (inv.chains _ (bucket_lt inv key))).not_mem_erase

/-- Witness for C8: after `insert(0,0); insert(0,1)`, erasing `(0, 0)` makes
position 0 unreachable from `first(0)`. -/
theorem C8_witness :
    0 ∉ traverse (erase (insert (insert (internal_init 4 4) 0 0) 0 1) 0 0)
      ((erase (insert (insert (internal_init 4 4) 0 0) 0 1) 0 0).index_chain.length + 1)
      (first (erase (insert (insert (internal_init 4 4) 0 0) 0 1) 0 0) 0) := by
  have t0 : Trace (internal_init 4 4) (fun _ => []) :=
    Trace.init 2 4 (by norm_num) (by norm_num)
  have hm0 : (internal_init 4 4).hash_mask = 3 := by decide
  have hm1 : (insert (internal_init 4 4) 0 0).hash_mask = 3 := by decide
  have hm2 : (insert (insert (internal_init 4 4) 0 0) 0 1).hash_mask = 3 := by decide
  have t1 := Trace.insert 0 0 t0 (by norm_num [null_index]) (fun b => List.not_mem_nil _)
  have hfresh : ∀ b, (1 : Nat) ∉
      Function.update (fun _ => ([] : List Nat)) (0 &&& (internal_init 4 4).hash_mask) [0] b := by
    intro b
    simp [hm0, Function.update]
  have t2 := Trace.insert 0 1 t1 (by norm_num [null_index]) hfresh
  rcases trace_inv t2 with ⟨u, _⟩ | inv
  · exact absurd u.alloc (by decide)
  · refine C8_erased_pair_unreachable inv ?_
    simp [hm0, hm1, hm2, Function.update]

/-- C7: with the default unsigned `index_type`, `insert_at_index` followed by
`erase_and_remove_index` at the same (hash, position) does not restore the
stored positions.  Starting from a table holding only position 0 in bucket 0,
bucket 1 is empty (`first(1)` is the sentinel); `insert_at_index(1,1)`
increments the unsigned sentinel `0xFFFFFFFF` in every empty bucket slot and
chain terminator, wrapping it to 0 (the bucket array becomes `[0,1,0,0]`),
and after `erase_and_remove_index(1,1)` (whose shift loop runs to the
sentinel maximum, reading out of bounds in C++) bucket 1 reports position 0
as a member: `first(1) = 0 ≠ null_index`. -/
theorem C7_roundtrip_not_identity :
    first (insert (internal_init 4 4) 0 0) 1 = null_index ∧
    (insert_at_index (insert (internal_init 4 4) 0 0) 1 1).hash_buckets = [0, 1, 0, 0] ∧
    first (erase_and_remove_index (insert_at_index (insert (internal_init 4 4) 0 0) 1 1) 1 1) 1
      = 0 := by
  refine ⟨by decide, by decide, by decide⟩

/-!  Projection lemmas for the C5 reachability invariant. -/

theorem insert_size_proj (hi : HashIndex) (key p : Nat) :
    (insert hi key p).hash_buckets_size = hi.hash_buckets_size := by
  simp only [insert, resize_index_chain, internal_allocate]
  split_ifs <;> rfl

theorem insert_alloc_proj (hi : HashIndex) (key p : Nat) :
    (insert hi key p).allocated = true := by
  simp only [insert, resize_index_chain, internal_allocate]
  split_ifs <;> simp_all

theorem insert_mask_alloc_proj (hi : HashIndex) (h : hi.allocated = true) (key p : Nat) :
    (insert hi key p).hash_mask = hi.hash_mask := by
  simp only [insert, resize_index_chain]
  split_ifs <;> simp_all

theorem insert_mask_unalloc_proj (hi : HashIndex) (h : hi.allocated = false) (key p : Nat) :
    (insert hi key p).hash_mask = hi.hash_buckets_size - 1 := by
  simp only [insert, internal_allocate]
  split_ifs <;> simp_all

theorem resize_size_proj (hi : HashIndex) (n : Nat) :
    (resize_index_chain hi n).hash_buckets_size = hi.hash_buckets_size := by
  simp only [resize_index_chain]
  split_ifs <;> rfl

theorem resize_alloc_proj (hi : HashIndex) (n : Nat) :
    (resize_index_chain hi n).allocated = hi.allocated := by
  simp only [resize_index_chain]
  split_ifs <;> rfl

theorem resize_mask_proj (hi : HashIndex) (n : Nat) :
    (resize_index_chain hi n).hash_mask = hi.hash_mask := by
  simp only [resize_index_chain]
  split_ifs <;> rfl

theorem erase_size_proj (hi : HashIndex) (key p : Nat) :
    (erase hi key p).hash_buckets_size = hi.hash_buckets_size := by
  simp only [erase]
  split_ifs <;> rfl

theorem erase_alloc_proj (hi : HashIndex) (key p : Nat) :
    (erase hi key p).allocated = hi.allocated := by
  simp only [erase]
  split_ifs <;> rfl

theorem erase_mask_proj (hi : HashIndex) (key p : Nat) :
    (erase hi key p).hash_mask = hi.hash_mask := by
  simp only [erase]
  split_ifs <;> rfl

theorem insert_at_size_proj (hi : HashIndex) (key p : Nat) :
    (insert_at_index hi key p).hash_buckets_size = hi.hash_buckets_size := by
  cases h : hi.allocated
  · simp [insert_at_index, h]
  · simp only [insert_at_index, h]
    rw [if_neg (by simp), insert_size_proj]
    simp only [resize_index_chain]
    split_ifs <;> rfl

theorem insert_at_alloc_proj (hi : HashIndex) (key p : Nat) :
    (insert_at_index hi key p).allocated = hi.allocated := by
  cases h : hi.allocated
  · simp [insert_at_index, h]
  · simp only [insert_at_index, h]
    rw [if_neg (by simp), insert_alloc_proj]

theorem insert_at_mask_proj (hi : HashIndex) (h : hi.allocated = true) (key p : Nat) :
    (insert_at_index hi key p).hash_mask = hi.hash_mask := by
  simp only [insert_at_index, h]
  rw [if_neg (by simp), insert_mask_alloc_proj]
  · simp only [resize_index_chain]
    split_ifs <;> rfl
  · simp only [resize_index_chain]
    split_ifs <;> simp_all

theorem erase_at_size_proj (hi : HashIndex) (key p : Nat) :
    (erase_and_remove_index hi key p).hash_buckets_size = hi.hash_buckets_size := by
  cases h : hi.allocated
  · simp [erase_and_remove_index, h]
  · simp only [erase_and_remove_index, h]
    rw [if_neg (by simp)]
    exact erase_size_proj ..

theorem erase_at_alloc_proj (hi : HashIndex) (key p : Nat) :
    (erase_and_remove_index hi key p).allocated = hi.allocated := by
  cases h : hi.allocated
  · simp [erase_and_remove_index, h]
  · simp only [erase_and_remove_index, h]
    rw [if_neg (by simp)]
    show (erase hi key p).allocated = true
    rw [erase_alloc_proj]
    exact h

theorem erase_at_mask_proj (hi : HashIndex) (key p : Nat) :
    (erase_and_remove_index hi key p).hash_mask = hi.hash_mask := by
  cases h : hi.allocated
  · simp [erase_and_remove_index, h]
  · simp only [erase_and_remove_index, h]
    rw [if_neg (by simp)]
    exact erase_mask_proj ..

/-- Preservation of the power-of-two bucket count and of the allocated-state
mask coherence by every single precondition-respecting public operation. -/
theorem clear_size_proj (hi : HashIndex) :
    (clear hi).hash_buckets_size = hi.hash_buckets_size := by
  simp only [clear]
  split_ifs <;> rfl

theorem clear_alloc_proj (hi : HashIndex) : (clear hi).allocated = hi.allocated := by
  simp only [clear]
  split_ifs <;> rfl

theorem clear_mask_proj (hi : HashIndex) : (clear hi).hash_mask = hi.hash_mask := by
  simp only [clear]
  split_ifs <;> rfl

/-- Preservation of the power-of-two bucket count and of the allocated-state
mask coherence by every single precondition-respecting public operation. -/
theorem applyOp_pot_mask {hi : HashIndex} (op : Op) (hwf : opWF op)
    (hpot : is_power_of_two hi.hash_buckets_size = true)
    (hmask : hi.allocated = true → hi.hash_mask = hi.hash_buckets_size - 1) :
    is_power_of_two (applyOp hi op).hash_buckets_size = true ∧
    ((applyOp hi op).allocated = true →
      (applyOp hi op).hash_mask = (applyOp hi op).hash_buckets_size - 1) := by
  cases op with
  | ins key index =>
    refine ⟨by simpa [applyOp, insert_size_proj] using hpot, ?_⟩
    intro _
    simp only [applyOp, insert_size_proj]
    cases h : hi.allocated
    · rw [insert_mask_unalloc_proj _ h]
    · rw [insert_mask_alloc_proj _ h]
      exact hmask h
  | ers key index =>
    refine ⟨by simpa [applyOp, erase_size_proj] using hpot, ?_⟩
    intro ha
    simp only [applyOp, erase_alloc_proj] at ha
    simp only [applyOp, erase_size_proj, erase_mask_proj]
    exact hmask ha
  | insAt key index =>
    refine ⟨by simpa [applyOp, insert_at_size_proj] using hpot, ?_⟩
    intro ha
    simp only [applyOp, insert_at_alloc_proj] at ha
    simp only [applyOp, insert_at_size_proj, insert_at_mask_proj _ ha]
    exact hmask ha
  | ersAt key index =>
    refine ⟨by simpa [applyOp, erase_at_size_proj] using hpot, ?_⟩
    intro ha
    simp only [applyOp, erase_at_alloc_proj] at ha
    simp only [applyOp, erase_at_size_proj, erase_at_mask_proj]
    exact hmask ha
  | clr =>
    refine ⟨by simpa [applyOp, clear_size_proj] using hpot, ?_⟩
    intro ha
    simp only [applyOp, clear_alloc_proj] at ha
    simp only [applyOp, clear_size_proj, clear_mask_proj]
    exact hmask ha
  | clrResize b c =>
    refine ⟨by simpa [applyOp, clear_and_resize, clear_and_free] using hwf, ?_⟩
    intro ha
    simp only [applyOp, clear_and_resize, clear_and_free] at ha
    exact absurd ha (by simp)
  | clrFree =>
    refine ⟨by simpa [applyOp, clear_and_free] using hpot, ?_⟩
    intro ha
    simp only [applyOp, clear_and_free] at ha
    exact absurd ha (by simp)
  | setGran g =>
    refine ⟨by simpa [applyOp, set_granularity] using hpot, ?_⟩
    intro ha
    simp only [applyOp, set_granularity] at ha
    simp only [applyOp, set_granularity]
    exact hmask ha
  | resize n =>
    refine ⟨by simpa [applyOp, resize_size_proj] using hpot, ?_⟩
    intro ha
    simp only [applyOp, resize_alloc_proj] at ha
    simp only [applyOp, resize_size_proj, resize_mask_proj]
    exact hmask ha

/-- The same invariant along whole precondition-respecting histories. -/
theorem execOps_pot_mask : ∀ (ops : List Op) (hi : HashIndex),
    (∀ op ∈ ops, opWF op) →
    is_power_of_two hi.hash_buckets_size = true →
    (hi.allocated = true → hi.hash_mask = hi.hash_buckets_size - 1) →
    is_power_of_two (execOps hi ops).hash_buckets_size = true ∧
    ((execOps hi ops).allocated = true →
      (execOps hi ops).hash_mask = (execOps hi ops).hash_buckets_size - 1) := by
  intro ops
  induction ops with
  | nil => exact fun hi _ h1 h2 => ⟨h1, h2⟩
  | cons op ops ih =>
    intro hi hwf h1 h2
    have hstep := applyOp_pot_mask op (hwf op (by simp)) h1 h2
    simpa [execOps] using
      ih (applyOp hi op) (fun o ho => hwf o (by simp [ho])) hstep.1 hstep.2

/-- C5 counterexample: the state reached from `hash_index(4, 4)` by the
single precondition-respecting public call `clear_and_resize(8, 8)` has
bucket-table length 8 (a power of two) but cached hash mask 3 ≠ 8 − 1:
`clear_and_resize` records the new sizes without updating `m_hash_mask`, so
the claimed invariant "hash mask = length − 1 in every reachable state" is
violated. -/
theorem C5_counterexample :
    is_power_of_two (clear_and_resize (internal_init 4 4) 8 8).hash_buckets_size = true ∧
    (clear_and_resize (internal_init 4 4) 8 8).hash_mask ≠
      (clear_and_resize (internal_init 4 4) 8 8).hash_buckets_size - 1 ∧
    clear_and_resize (internal_init 4 4) 8 8 =
      execOps (internal_init 4 4) [Op.clrResize 8 8] := by
  decide

/-- C5 (amended): in every state reachable from a constructed
`hash_index(2^k, c)` by precondition-respecting public operations, the bucket
table length is a power of two, and whenever the structure is allocated the
cached hash mask equals that length minus one (after `clear_and_resize` the
mask is stale, but only while the structure stays unallocated; the next
allocation recomputes it). -/
theorem C5_pot_and_mask {B C : Nat} (hB : is_power_of_two B = true) (ops : List Op)
    (hops : ∀ op ∈ ops, opWF op) :
    is_power_of_two (execOps (internal_init B C) ops).hash_buckets_size = true ∧
    ((execOps (internal_init B C) ops).allocated = true →
      (execOps (internal_init B C) ops).hash_mask =
        (execOps (internal_init B C) ops).hash_buckets_size - 1) := by
  refine execOps_pot_mask ops _ hops (by simpa [internal_init] using hB) ?_
  intro h
  simp [internal_init] at h

/-- Witness for C5: a concrete history exercising insert, clear_and_resize,
insert and erase keeps the invariant. -/
theorem C5_witness :
    is_power_of_two (execOps (internal_init 4 4)
      [Op.ins 0 0, Op.clrResize 8 8, Op.ins 0 1, Op.ers 0 1]).hash_buckets_size = true ∧
    ((execOps (internal_init 4 4)
        [Op.ins 0 0, Op.clrResize 8 8, Op.ins 0 1, Op.ers 0 1]).allocated = true →
      (execOps (internal_init 4 4)
          [Op.ins 0 0, Op.clrResize 8 8, Op.ins 0 1, Op.ers 0 1]).hash_mask =
        (execOps (internal_init 4 4)
            [Op.ins 0 0, Op.clrResize 8 8, Op.ins 0 1, Op.ers 0 1]).hash_buckets_size - 1) := by
  refine C5_pot_and_mask (by decide) _ ?_
  intro op hop
  simp only [List.mem_cons, List.not_mem_nil, or_false] at hop
  rcases hop with rfl | rfl | rfl | rfl <;> simp [opWF]
  decide

end HashIdx
